import Mathlib

/-!
Verification of the fee-history oracle (`gasprice` package, `plugin/evm/factory.go`
slice of this repository).

Shallow embedding conventions:
* `*big.Int` values are modelled as `ℤ` (the code never overflows big integers).
* `uint64` quantities are modelled as `ℕ`; the one place the code converts a
  signed value to `uint64` (`uint64(lastBlock)` in `resolveBlockRange`) is
  modelled with an explicit `% 2^64` (`toUint64`).
* `float64` percentile arithmetic is modelled over `ℚ`.  For the gas values a
  real chain produces (far below `2^53`) the `float64` computation
  `uint64(float64(gasUsed) * p / 100)` is exact and agrees with
  `Int.toNat ⌊gasUsed * p / 100⌋` over `ℚ`.
* The concurrent fetch pipeline of `FeeHistory` is modelled sequentially in
  ascending block order.  The assembled arrays are deterministic because each
  worker indexes its result by `blockNumber - oldestBlock`; only the choice of
  which backend error surfaces (when several blocks fail) is
  scheduling-dependent, and no theorem below depends on that choice.
* The backend (`BlockByNumber` + `GetReceipts` + `processBlock`) is modelled as
  a function `ℕ → FetchOutcome` giving, per block number, either the cached
  `slimBlock`, "no block and no error" (reorg), or a backend error.
-/

/-- A transaction's gas use paired with its effective reward
(`txGasAndReward` in the source). -/
structure txGasAndReward where
  gasUsed : ℕ
  reward : ℤ
deriving DecidableEq

instance : Inhabited txGasAndReward := ⟨⟨0, 0⟩⟩

/-- The minimal fee-relevant projection of a block (`slimBlock` in the source).
`Txs` is expected to be sorted ascending by `reward` (established by
`processBlock` via `sort.Sort`). -/
structure slimBlock where
  GasUsed : ℕ
  GasLimit : ℕ
  BaseFee : ℤ
  Txs : List txGasAndReward
deriving DecidableEq

/-- Result of processing one block (`processedFees` in the source).
`reward` is empty iff no percentiles were requested. -/
structure processedFees where
  reward : List ℤ
  baseFee : ℤ
  gasUsedRatio : ℚ
deriving DecidableEq

instance : Inhabited processedFees := ⟨⟨[], 0, 0⟩⟩

/-- Errors surfaced by `FeeHistory`/`resolveBlockRange`, with the data the Go
code interpolates into the error message. -/
inductive FeeHistoryError where
  | invalidPercentile (p : ℚ)
  | invalidPercentilePair (i : ℕ) (prev : ℚ) (p : ℚ)
  | beyondHistoricalLimit (requested : ℤ) (head : ℤ)
  | requestBeyondHead (requested : ℤ) (head : ℤ)
  | backendFailure
deriving DecidableEq

/-- Outcome of fetching one block number from the backend, after
`BlockByNumber`/`GetReceipts`/`processBlock`: a slim block, "no block and no
error" (line 270 with `block == nil && err == nil`), or an error. -/
inductive FetchOutcome where
  | found (sb : slimBlock)
  | notFound
  | backendErr
deriving DecidableEq

/-- Oracle configuration and chain head.  `lastAcceptedBlock` stands for
`oracle.backend.LastAcceptedBlock().NumberU64()`; the two limits are the
configuration fields read by `FeeHistory`/`resolveBlockRange`. -/
structure Oracle where
  lastAcceptedBlock : ℕ
  maxBlockHistory : ℕ
  maxCallBlockHistory : ℕ
deriving DecidableEq

/-- The five return values of `FeeHistory`.  `none` models a nil slice. -/
structure FeeHistoryResult where
  oldestBlock : ℤ
  reward : Option (List (List ℤ))
  baseFee : Option (List ℤ)
  gasUsedRatio : Option (List ℚ)
  err : Option FeeHistoryError
deriving DecidableEq

/-! ### Percentile calculator (`slimBlock.processPercentiles`) -/

/-- `thresholdGasUsed := uint64(float64(gas) * p / 100)` (line 163), exact over
`ℚ` and written with integer floor division so that it evaluates by kernel
reduction; `thresholdGasUsed_eq_floor` below identifies it with the rational
floor expression. -/
def thresholdGasUsed (gas : ℕ) (p : ℚ) : ℕ :=
  ((gas * p.num).fdiv (p.den * 100)).toNat

theorem thresholdGasUsed_eq_floor (g : ℕ) (p : ℚ) :
    thresholdGasUsed g p = (⌊(g : ℚ) * p / 100⌋).toNat := by
  unfold thresholdGasUsed
  congr 1
  rw [Int.fdiv_eq_ediv _ (by positivity)]
  rw [show (g : ℚ) * p / 100 = ((g * p.num : ℤ) : ℚ) / ((p.den * 100 : ℕ) : ℚ) by
    conv_lhs => rw [← Rat.num_div_den p]
    push_cast
    field_simp]
  rw [Rat.floor_intCast_div_natCast]
  push_cast
  ring_nf

/-- The inner cursor loop of `processPercentiles` (lines 164-167), written with
a structural fuel argument so that it evaluates by kernel reduction.  The fuel
passed by `advanceCursor` is exactly the number of iterations the Go loop can
still make, so the two agree. -/
def advanceCursorGo (txs : List txGasAndReward) (threshold : ℕ) :
    ℕ → ℕ → ℕ → ℕ × ℕ
  | 0, txIndex, sumGasUsed => (txIndex, sumGasUsed)
  | fuel + 1, txIndex, sumGasUsed =>
    if sumGasUsed < threshold ∧ txIndex < txs.length - 1 then
      advanceCursorGo txs threshold fuel (txIndex + 1)
        (sumGasUsed + (txs.getD (txIndex + 1) default).gasUsed)
    else (txIndex, sumGasUsed)

/-- `for sumGasUsed < thresholdGasUsed && txIndex < txLen-1 { txIndex++; ... }`
returning the final `(txIndex, sumGasUsed)`. -/
def advanceCursor (txs : List txGasAndReward) (threshold : ℕ)
    (txIndex sumGasUsed : ℕ) : ℕ × ℕ :=
  advanceCursorGo txs threshold (txs.length - 1 - txIndex) txIndex sumGasUsed

/-- The outer loop of `processPercentiles` (lines 162-169): one cursor advance
and one emitted reward per requested percentile. -/
def percLoop (sb : slimBlock) : ℕ → ℕ → List ℚ → List ℤ
  | _, _, [] => []
  | txIndex, sumGasUsed, p :: ps =>
    let r := advanceCursor sb.Txs (thresholdGasUsed sb.GasUsed p) txIndex sumGasUsed
    (sb.Txs.getD r.1 default).reward :: percLoop sb r.1 r.2 ps

/-- `(*slimBlock).processPercentiles` (lines 140-171). -/
def slimBlock.processPercentiles (sb : slimBlock) (percentiles : List ℚ) :
    processedFees :=
  if percentiles.length = 0 then
    ⟨[], sb.BaseFee, (sb.GasUsed : ℚ) / (sb.GasLimit : ℚ)⟩
  else if sb.Txs.length = 0 then
    ⟨percentiles.map (fun _ => 0), sb.BaseFee, (sb.GasUsed : ℚ) / (sb.GasLimit : ℚ)⟩
  else
    ⟨percLoop sb 0 (sb.Txs.headD default).gasUsed percentiles,
     sb.BaseFee, (sb.GasUsed : ℚ) / (sb.GasLimit : ℚ)⟩

/-! ### The percentile calculator as the specification words it

The spec describes the calculator as advancing a cursor through the
reward-sorted transaction list while the running cumulative gas used is below
`gasLimit * p / 100` and the cursor has not reached the last transaction, then
emitting the reward at the cursor's final position.  We formalise the final
position declaratively: the first position at or after the current cursor
whose cumulative gas reaches the threshold, capped at the last position. -/

/-- Cumulative gas used by the transactions up to and including position `i`. -/
def cumGasUsed (txs : List txGasAndReward) (i : ℕ) : ℕ :=
  ((txs.take (i + 1)).map (fun t => t.gasUsed)).sum

/-- Fueled search for the cursor's final position. -/
def cursorStopGo (txs : List txGasAndReward) (threshold : ℕ) : ℕ → ℕ → ℕ
  | 0, _ => txs.length - 1
  | fuel + 1, j =>
    if j < txs.length - 1 then
      if threshold ≤ cumGasUsed txs j then j else cursorStopGo txs threshold fuel (j + 1)
    else txs.length - 1

/-- The first position at or after `start` whose cumulative gas used reaches
`threshold`, capped at the last position of the list. -/
def cursorStop (txs : List txGasAndReward) (threshold : ℕ) (start : ℕ) : ℕ :=
  cursorStopGo txs threshold (txs.length - start) start

/-- One reward per percentile, produced by moving the cursor monotonically
through the reward-sorted list; `totalGas` feeds the threshold. -/
def rewardsByCursorWalk (txs : List txGasAndReward) (totalGas : ℕ) :
    ℕ → List ℚ → List ℤ
  | _, [] => []
  | start, p :: ps =>
    let c := cursorStop txs (thresholdGasUsed totalGas p) start
    (txs.getD c default).reward :: rewardsByCursorWalk txs totalGas c ps

/-- The claim's reward sequence: thresholds computed from the block's
`gasLimit`, as the specification sentence states. -/
def claimPercentileRewards (sb : slimBlock) (ps : List ℚ) : List ℤ :=
  rewardsByCursorWalk sb.Txs sb.GasLimit 0 ps

/-- The amended reward sequence: thresholds computed from the block's total
`gasUsed`, as the code does. -/
def claimPercentileRewardsFixed (sb : slimBlock) (ps : List ℚ) : List ℤ :=
  rewardsByCursorWalk sb.Txs sb.GasUsed 0 ps

/-! ### Range resolver (`resolveBlockRange`) -/

/-- Modelled from the spec: the `rpc.BlockNumber` selector ("pending" sentinel)
used by `resolveBlockRange`; the `rpc` package is not part of the provided
source slice.  Selectors are "absolute number, latest, pending, accepted". -/
def PendingBlockNumber : ℤ := -2

/-- Modelled from the spec: the "latest" block selector. -/
def LatestBlockNumber : ℤ := -1

/-- Modelled from the spec: the "accepted" block selector. -/
def AcceptedBlockNumber : ℤ := -3

/-- Modelled from the spec: `rpc.BlockNumber.IsAccepted`, true exactly for the
latest/pending/accepted selectors, which all denote the last accepted block
(rule 4 of the spec's Range Resolver: "accepted" substitutes head; "pending"
was already substituted by "latest" in rule 1). -/
def isAccepted (bn : ℤ) : Prop :=
  bn < 0 ∧ AcceptedBlockNumber ≤ bn

instance (bn : ℤ) : Decidable (isAccepted bn) := by
  unfold isAccepted
  infer_instance

/-- The Go conversion `uint64(lastBlock)` on the `int64`-valued block number
(line 213). -/
def toUint64 (z : ℤ) : ℕ :=
  (z % 18446744073709551616).toNat

/-- The shared tail of `resolveBlockRange` (lines 200-213): clamp the count at
genesis, then shrink it if the interval reaches deeper than the history
window. -/
def clampRange (lastAccepted maxQueryDepth lastBlock blocks : ℤ) :
    ℕ × ℤ × Option FeeHistoryError :=
  let blocks2 := if blocks > lastBlock + 1 then lastBlock + 1 else blocks
  let oldestQueriedIndex := lastBlock - blocks2 + 1
  let blocks3 :=
    if lastAccepted - oldestQueriedIndex > maxQueryDepth then
      blocks2 - (lastAccepted - oldestQueriedIndex - maxQueryDepth)
    else blocks2
  (toUint64 lastBlock, blocks3, none)

/-- `(*Oracle).resolveBlockRange` (lines 177-214), returning the Go triple
`(uint64, int, error)`. -/
def resolveBlockRange (oracle : Oracle) (lastBlock0 blocks0 : ℤ) :
    ℕ × ℤ × Option FeeHistoryError :=
  let lastBlock1 := if lastBlock0 = PendingBlockNumber then LatestBlockNumber else lastBlock0
  let blocks1 := if lastBlock0 = PendingBlockNumber then blocks0 - 1 else blocks0
  if blocks1 = 0 then (0, 0, none)
  else
    let lastAccepted : ℤ := (oracle.lastAcceptedBlock : ℤ)
    let maxQueryDepth : ℤ := (oracle.maxBlockHistory : ℤ) - 1
    if isAccepted lastBlock1 then
      clampRange lastAccepted maxQueryDepth lastAccepted blocks1
    else if lastAccepted > maxQueryDepth ∧ lastAccepted - maxQueryDepth > lastBlock1 then
      (0, 0, some (FeeHistoryError.beyondHistoricalLimit lastBlock1 lastAccepted))
    else if lastBlock1 > lastAccepted then
      (0, 0, some (FeeHistoryError.requestBeyondHead lastBlock1 lastAccepted))
    else
      clampRange lastAccepted maxQueryDepth lastBlock1 blocks1

/-! ### Percentile validation (`FeeHistory` lines 237-244) -/

/-- The validation loop body: `idx` is the position of the head of the
remaining list within the original slice and `prev` the previous entry. -/
def validatePercentilesAux (prev : Option ℚ) (idx : ℕ) :
    List ℚ → Option FeeHistoryError
  | [] => none
  | p :: ps =>
    if p < 0 ∨ p > 100 then some (FeeHistoryError.invalidPercentile p)
    else
      match prev with
      | some q =>
        if p < q then some (FeeHistoryError.invalidPercentilePair (idx - 1) q p)
        else validatePercentilesAux (some p) (idx + 1) ps
      | none => validatePercentilesAux (some p) (idx + 1) ps

/-- The `for i, p := range rewardPercentiles` validation loop. -/
def validatePercentiles (ps : List ℚ) : Option FeeHistoryError :=
  validatePercentilesAux none 0 ps

/-- An error produced by percentile validation, carrying an offending value
(out of `[0,100]`) or an offending strictly decreasing adjacent pair. -/
def offendingPercentileErr : FeeHistoryError → Prop
  | FeeHistoryError.invalidPercentile p => p < 0 ∨ 100 < p
  | FeeHistoryError.invalidPercentilePair _ q p => p < q
  | _ => False

instance (e : FeeHistoryError) : Decidable (offendingPercentileErr e) := by
  unfold offendingPercentileErr
  cases e <;> infer_instance

/-! ### Fetch pipeline and response assembly (`FeeHistory` lines 251-319)

The concurrent pipeline is modelled sequentially in ascending block order;
see the module docstring for why this is faithful for the assembled result. -/

/-- What one worker computes for one block number: the per-block fees, or
`none` for "no block and no error" (missing/reorged block). -/
def blockFeesAt (backend : ℕ → FetchOutcome) (ps : List ℚ) (n : ℕ) :
    Option processedFees :=
  match backend n with
  | FetchOutcome.found sb => some (sb.processPercentiles ps)
  | _ => none

/-- The per-slot results for the whole resolved range: slot `i` holds
`blockFeesAt backend ps (oldest + i)`, for `i < n`. -/
def rangeEntries (backend : ℕ → FetchOutcome) (ps : List ℚ) :
    ℕ → ℕ → List (Option processedFees)
  | _, 0 => []
  | oldest, n + 1 =>
    blockFeesAt backend ps oldest :: rangeEntries backend ps (oldest + 1) n

/-- Fetch `n` blocks starting at `next`, aborting on a backend error. -/
def fetchRange (backend : ℕ → FetchOutcome) (ps : List ℚ) :
    ℕ → ℕ → Except FeeHistoryError (List (Option processedFees))
  | _, 0 => Except.ok []
  | next, n + 1 =>
    match backend next with
    | FetchOutcome.backendErr => Except.error FeeHistoryError.backendFailure
    | FetchOutcome.notFound =>
      (fetchRange backend ps (next + 1) n).map (fun l => none :: l)
    | FetchOutcome.found sb =>
      (fetchRange backend ps (next + 1) n).map
        (fun l => some (sb.processPercentiles ps) :: l)

/-- `firstMissing`: the first slot index at or after which data is missing
(initialised to the block count and minimised over missing slots in the Go
drain loop; with slots in ascending order this is the first missing index). -/
def firstMissingIdx (entries : List (Option processedFees)) : ℕ :=
  entries.findIdx (fun o => o.isNone)

/-- The result-shaping tail of `FeeHistory` (lines 310-319): empty success when
`firstMissing == 0`, otherwise all arrays truncated to `[0, firstMissing)` and
the reward matrix omitted entirely when no percentiles were requested. -/
def assemble (ps : List ℚ) (oldest : ℕ)
    (entries : List (Option processedFees)) : FeeHistoryResult :=
  let firstMissing := firstMissingIdx entries
  if firstMissing = 0 then ⟨0, none, none, none, none⟩
  else
    let kept := (entries.take firstMissing).map (fun o => o.getD default)
    ⟨(oldest : ℤ),
     if ps.length ≠ 0 then some (kept.map (fun f => f.reward)) else none,
     some (kept.map (fun f => f.baseFee)),
     some (kept.map (fun f => f.gasUsedRatio)),
     none⟩

/-- `(*Oracle).FeeHistory` (lines 229-320). -/
def FeeHistory (oracle : Oracle) (backend : ℕ → FetchOutcome)
    (blocks0 lastB : ℤ) (ps : List ℚ) : FeeHistoryResult :=
  if blocks0 < 1 then ⟨0, none, none, none, none⟩
  else
    let blocks1 :=
      if blocks0 > (oracle.maxCallBlockHistory : ℤ) then (oracle.maxCallBlockHistory : ℤ)
      else blocks0
    match validatePercentiles ps with
    | some e => ⟨0, none, none, none, some e⟩
    | none =>
      let r := resolveBlockRange oracle lastB blocks1
      if r.2.2 ≠ none ∨ r.2.1 = 0 then ⟨0, none, none, none, r.2.2⟩
      else
        let n := r.2.1.toNat
        let oldest := r.1 + 1 - n
        match fetchRange backend ps oldest n with
        | Except.error e => ⟨0, none, none, none, some e⟩
        | Except.ok entries => assemble ps oldest entries

/-! ### Helper lemmas about the cursor loop -/

theorem cumGasUsed_succ (txs : List txGasAndReward) (i : ℕ) (h : i + 1 < txs.length) :
    cumGasUsed txs (i + 1) = cumGasUsed txs i + (txs.getD (i + 1) default).gasUsed := by
  unfold cumGasUsed
  rw [List.take_succ, List.getElem?_eq_getElem h, List.getD_eq_getElem txs default h]
  simp only [Option.toList_some, List.map_append, List.sum_append, List.map_cons,
    List.map_nil, List.sum_cons, List.sum_nil, Nat.add_zero]

theorem cumGasUsed_zero (txs : List txGasAndReward) (h : txs ≠ []) :
    cumGasUsed txs 0 = (txs.headD default).gasUsed := by
  cases txs with
  | nil => exact absurd rfl h
  | cons a l => simp [cumGasUsed]

theorem cumGasUsed_last (txs : List txGasAndReward) (h : txs ≠ []) :
    cumGasUsed txs (txs.length - 1) = (txs.map (fun t => t.gasUsed)).sum := by
  have hlen : 0 < txs.length := List.length_pos.mpr h
  unfold cumGasUsed
  rw [show txs.length - 1 + 1 = txs.length from by omega, List.take_length]

theorem cumGasUsed_step_lt (txs : List txGasAndReward)
    (hpos : ∀ t ∈ txs, 0 < t.gasUsed) (i : ℕ) (h : i + 1 < txs.length) :
    cumGasUsed txs i < cumGasUsed txs (i + 1) := by
  rw [cumGasUsed_succ txs i h]
  have hmem : txs.getD (i + 1) default ∈ txs := by
    rw [List.getD_eq_getElem txs default h]
    exact List.getElem_mem h
  have := hpos _ hmem
  omega

theorem cumGasUsed_lt_last (txs : List txGasAndReward)
    (hpos : ∀ t ∈ txs, 0 < t.gasUsed) :
    ∀ d j, j + d = txs.length - 1 → 0 < d →
      cumGasUsed txs j < cumGasUsed txs (txs.length - 1) := by
  intro d
  induction d with
  | zero => omega
  | succ d ih =>
    intro j hj _
    have hlen : j + 1 < txs.length := by omega
    rcases Nat.eq_zero_or_pos d with rfl | hd
    · rw [show txs.length - 1 = j + 1 from by omega]
      exact cumGasUsed_step_lt txs hpos j hlen
    · exact lt_trans (cumGasUsed_step_lt txs hpos j hlen) (ih (j + 1) (by omega) hd)

theorem advanceCursorGo_eq_cursorStop (txs : List txGasAndReward) (T : ℕ) :
    ∀ fuel i, txs.length - 1 - i ≤ fuel → i < txs.length →
      advanceCursorGo txs T fuel i (cumGasUsed txs i)
        = (cursorStop txs T i, cumGasUsed txs (cursorStop txs T i)) := by
  intro fuel
  induction fuel with
  | zero =>
    intro i hfuel hi
    have hstop : cursorStop txs T i = i := by
      unfold cursorStop
      rw [show txs.length - i = 0 + 1 from by omega]
      simp only [cursorStopGo]
      rw [if_neg (by omega)]
      omega
    rw [hstop]
    simp only [advanceCursorGo]
  | succ fuel ih =>
    intro i hfuel hi
    by_cases hA : cumGasUsed txs i < T
    · by_cases hB : i < txs.length - 1
      · have hi1 : i + 1 < txs.length := by omega
        have hstep :
            advanceCursorGo txs T (fuel + 1) i (cumGasUsed txs i)
              = advanceCursorGo txs T fuel (i + 1)
                  (cumGasUsed txs i + (txs.getD (i + 1) default).gasUsed) := by
          simp only [advanceCursorGo]
          rw [if_pos ⟨hA, hB⟩]
        rw [hstep, ← cumGasUsed_succ txs i hi1, ih (i + 1) (by omega) hi1]
        have hsame : cursorStop txs T i = cursorStop txs T (i + 1) := by
          unfold cursorStop
          rw [show txs.length - i = (txs.length - (i + 1)) + 1 from by omega]
          simp only [cursorStopGo]
          rw [if_pos hB, if_neg (by omega)]
        rw [hsame]
      · have hstop : cursorStop txs T i = i := by
          unfold cursorStop
          rw [show txs.length - i = 0 + 1 from by omega]
          simp only [cursorStopGo]
          rw [if_neg (by omega)]
          omega
        rw [hstop]
        simp only [advanceCursorGo]
        rw [if_neg (by tauto)]
    · have hstop : cursorStop txs T i = i := by
        unfold cursorStop
        by_cases hB : i < txs.length - 1
        · rw [show txs.length - i = (txs.length - (i + 1)) + 1 from by omega]
          simp only [cursorStopGo]
          rw [if_pos hB, if_pos (by omega)]
        · rw [show txs.length - i = 0 + 1 from by omega]
          simp only [cursorStopGo]
          rw [if_neg (by omega)]
          omega
      rw [hstop]
      simp only [advanceCursorGo]
      rw [if_neg (by tauto)]

theorem advanceCursor_eq_cursorStop (txs : List txGasAndReward) (T : ℕ)
    (i : ℕ) (hi : i < txs.length) :
    advanceCursor txs T i (cumGasUsed txs i)
      = (cursorStop txs T i, cumGasUsed txs (cursorStop txs T i)) :=
  advanceCursorGo_eq_cursorStop txs T (txs.length - 1 - i) i le_rfl hi

theorem cursorStopGo_bounds (txs : List txGasAndReward) (T : ℕ) :
    ∀ fuel j, j ≤ txs.length - 1 →
      j ≤ cursorStopGo txs T fuel j ∧ cursorStopGo txs T fuel j ≤ txs.length - 1 := by
  intro fuel
  induction fuel with
  | zero => intro j hj; simp only [cursorStopGo]; omega
  | succ fuel ih =>
    intro j hj
    simp only [cursorStopGo]
    by_cases hB : j < txs.length - 1
    · rw [if_pos hB]
      by_cases hT : T ≤ cumGasUsed txs j
      · rw [if_pos hT]; omega
      · rw [if_neg hT]
        have := ih (j + 1) (by omega)
        omega
    · rw [if_neg hB]; omega

theorem cursorStop_bounds (txs : List txGasAndReward) (T : ℕ) (j : ℕ)
    (hj : j ≤ txs.length - 1) :
    j ≤ cursorStop txs T j ∧ cursorStop txs T j ≤ txs.length - 1 :=
  cursorStopGo_bounds txs T (txs.length - j) j hj

theorem percLoop_eq_walk (sb : slimBlock) :
    ∀ ps i, i < sb.Txs.length →
      percLoop sb i (cumGasUsed sb.Txs i) ps
        = rewardsByCursorWalk sb.Txs sb.GasUsed i ps := by
  intro ps
  induction ps with
  | nil => intro i _; rfl
  | cons p ps ih =>
    intro i hi
    have hlen : 0 < sb.Txs.length := by omega
    simp only [percLoop, rewardsByCursorWalk]
    rw [advanceCursor_eq_cursorStop sb.Txs (thresholdGasUsed sb.GasUsed p) i hi]
    have hc := cursorStop_bounds sb.Txs (thresholdGasUsed sb.GasUsed p) i (by omega)
    exact congrArg _ (ih _ (by omega))

theorem processPercentiles_reward_eq_walk (sb : slimBlock) (ps : List ℚ)
    (h : sb.Txs ≠ []) :
    (sb.processPercentiles ps).reward = claimPercentileRewardsFixed sb ps := by
  have hlen : 0 < sb.Txs.length := List.length_pos.mpr h
  unfold slimBlock.processPercentiles claimPercentileRewardsFixed
  by_cases hps : ps.length = 0
  · rw [if_pos hps]
    rw [List.length_eq_zero] at hps
    subst hps
    rfl
  · rw [if_neg hps, if_neg (by omega)]
    rw [← cumGasUsed_zero sb.Txs h]
    exact percLoop_eq_walk sb ps 0 hlen

theorem sorted_getD_mono (txs : List txGasAndReward)
    (hs : List.Pairwise (fun a b => a.reward ≤ b.reward) txs)
    {i j : ℕ} (hij : i ≤ j) (hj : j < txs.length) :
    (txs.getD i default).reward ≤ (txs.getD j default).reward := by
  rcases Nat.eq_or_lt_of_le hij with rfl | hlt
  · exact le_refl _
  · rw [List.getD_eq_getElem txs default (lt_trans hlt hj), List.getD_eq_getElem txs default hj]
    have := List.pairwise_iff_get.mp hs ⟨i, lt_trans hlt hj⟩ ⟨j, hj⟩ hlt
    simpa using this

theorem rewardsByCursorWalk_chain (txs : List txGasAndReward) (totalGas : ℕ)
    (hs : List.Pairwise (fun a b => a.reward ≤ b.reward) txs) (hne : txs ≠ []) :
    ∀ ps i, i ≤ txs.length - 1 →
      List.Chain' (fun a b => a ≤ b) (rewardsByCursorWalk txs totalGas i ps)
      ∧ ∀ r ∈ rewardsByCursorWalk txs totalGas i ps,
          (txs.getD i default).reward ≤ r := by
  have hlen : 0 < txs.length := List.length_pos.mpr hne
  intro ps
  induction ps with
  | nil =>
    intro i _
    constructor
    · simp only [rewardsByCursorWalk]
      exact List.chain'_nil
    · intro r hr
      simp only [rewardsByCursorWalk, List.not_mem_nil] at hr
  | cons p ps ih =>
    intro i hi
    have hc := cursorStop_bounds txs (thresholdGasUsed totalGas p) i hi
    obtain ⟨iht, ihb⟩ := ih (cursorStop txs (thresholdGasUsed totalGas p) i) hc.2
    simp only [rewardsByCursorWalk]
    constructor
    · exact List.chain'_cons'.mpr
        ⟨fun y hy => ihb y (List.mem_of_mem_head? hy), iht⟩
    · intro r hr
      rcases List.mem_cons.mp hr with rfl | hr'
      · exact sorted_getD_mono txs hs hc.1 (by omega)
      · exact le_trans (sorted_getD_mono txs hs hc.1 (by omega)) (ihb r hr')

theorem thresholdGasUsed_zero (g : ℕ) : thresholdGasUsed g 0 = 0 := by
  rw [thresholdGasUsed_eq_floor]
  norm_num

theorem thresholdGasUsed_hundred (g : ℕ) : thresholdGasUsed g 100 = g := by
  rw [thresholdGasUsed_eq_floor]
  rw [show (g : ℚ) * 100 / 100 = (g : ℚ) from by ring]
  rw [Int.floor_natCast]
  exact Int.toNat_natCast g

theorem cursorStop_zero_threshold (txs : List txGasAndReward) (j : ℕ)
    (hj : j ≤ txs.length - 1) : cursorStop txs 0 j = j := by
  unfold cursorStop
  by_cases hB : j < txs.length - 1
  · rw [show txs.length - j = (txs.length - (j + 1)) + 1 from by omega]
    simp only [cursorStopGo]
    rw [if_pos hB, if_pos (Nat.zero_le _)]
  · rw [show txs.length - j = txs.length - j from rfl]
    rcases Nat.eq_zero_or_pos (txs.length - j) with h0 | h0
    · simp only [h0, cursorStopGo]; omega
    · rw [show txs.length - j = (txs.length - j - 1) + 1 from by omega]
      simp only [cursorStopGo]
      rw [if_neg hB]
      omega

theorem cursorStopGo_total (txs : List txGasAndReward) (T : ℕ)
    (hpos : ∀ t ∈ txs, 0 < t.gasUsed)
    (htot : (txs.map (fun t => t.gasUsed)).sum ≤ T) (hne : txs ≠ []) :
    ∀ fuel j, cursorStopGo txs T fuel j = txs.length - 1 := by
  intro fuel
  induction fuel with
  | zero => intro j; rfl
  | succ fuel ih =>
    intro j
    simp only [cursorStopGo]
    by_cases hB : j < txs.length - 1
    · rw [if_pos hB]
      have hlt : cumGasUsed txs j < (txs.map (fun t => t.gasUsed)).sum := by
        rw [← cumGasUsed_last txs hne]
        exact cumGasUsed_lt_last txs hpos (txs.length - 1 - j) j (by omega) (by omega)
      rw [if_neg (by omega)]
      exact ih (j + 1)
    · rw [if_neg hB]

theorem cursorStop_total (txs : List txGasAndReward) (T : ℕ)
    (hpos : ∀ t ∈ txs, 0 < t.gasUsed)
    (htot : (txs.map (fun t => t.gasUsed)).sum ≤ T) (hne : txs ≠ []) (j : ℕ) :
    cursorStop txs T j = txs.length - 1 :=
  cursorStopGo_total txs T hpos htot hne (txs.length - j) j

/-! ### Claims about the percentile calculator -/

/-- C1 counterexample: on the slim block with gasUsed 20, gasLimit 100 and two
transactions of 10 gas each, the calculator run at percentile 50 does not
follow the claimed rule "advance while cumulative gas is below
`gasLimit * p / 100`": the code stops at the first transaction (threshold
`gasUsed * 50 / 100 = 10`), the claimed rule would stop at the second
(threshold `gasLimit * 50 / 100 = 50`). -/
theorem processPercentiles_gasLimit_rule_counterexample :
    (⟨20, 100, 0, [⟨10, 1⟩, ⟨10, 2⟩]⟩ : slimBlock).Txs.length = 2 ∧
    (slimBlock.processPercentiles ⟨20, 100, 0, [⟨10, 1⟩, ⟨10, 2⟩]⟩ [50]).reward = [1] ∧
    claimPercentileRewards ⟨20, 100, 0, [⟨10, 1⟩, ⟨10, 2⟩]⟩ [50] = [2] ∧
    (slimBlock.processPercentiles ⟨20, 100, 0, [⟨10, 1⟩, ⟨10, 2⟩]⟩ [50]).reward
      ≠ claimPercentileRewards ⟨20, 100, 0, [⟨10, 1⟩, ⟨10, 2⟩]⟩ [50] := by
  decide

/-- C1 (amended): for every slim block with at least one transaction, the
percentile calculator advances its cursor through the reward-sorted
transaction list while the running cumulative gasUsed is less than
`gasUsed * p / 100` (the block's total gas used, not its gas limit) and the
cursor has not reached the last transaction, and emits the reward at the
cursor's final position for each percentile. -/
theorem processPercentiles_follows_gasUsed_cursor_rule (sb : slimBlock)
    (ps : List ℚ) (hne : sb.Txs ≠ []) :
    (sb.processPercentiles ps).reward = claimPercentileRewardsFixed sb ps :=
  processPercentiles_reward_eq_walk sb ps hne

theorem processPercentiles_follows_gasUsed_cursor_rule_witness :
    (⟨20, 100, 0, [⟨10, 1⟩, ⟨10, 2⟩]⟩ : slimBlock).Txs ≠ [] ∧
    (slimBlock.processPercentiles ⟨20, 100, 0, [⟨10, 1⟩, ⟨10, 2⟩]⟩ [50]).reward
      = claimPercentileRewardsFixed ⟨20, 100, 0, [⟨10, 1⟩, ⟨10, 2⟩]⟩ [50] :=
  ⟨by decide,
   processPercentiles_follows_gasUsed_cursor_rule ⟨20, 100, 0, [⟨10, 1⟩, ⟨10, 2⟩]⟩
     [50] (by decide)⟩

/-- C9: for a block with zero transactions and a non-empty percentile list,
the calculator returns one reward per requested percentile and every one of
them is zero. -/
theorem processPercentiles_zero_txs (sb : slimBlock) (ps : List ℚ)
    (hps : ps ≠ []) (htx : sb.Txs = []) :
    ((sb.processPercentiles ps).reward).length = ps.length ∧
    ∀ r ∈ (sb.processPercentiles ps).reward, r = 0 := by
  have h1 : ¬ ps.length = 0 := by simpa [List.length_eq_zero] using hps
  unfold slimBlock.processPercentiles
  rw [if_neg h1, if_pos (by rw [htx]; rfl)]
  constructor
  · simp
  · intro r hr
    simp only [List.mem_map] at hr
    obtain ⟨a, _, ha⟩ := hr
    exact ha.symm

theorem processPercentiles_zero_txs_witness :
    ([(10 : ℚ), 20] ≠ ([] : List ℚ)) ∧ (⟨5, 10, 3, []⟩ : slimBlock).Txs = [] ∧
    ((slimBlock.processPercentiles ⟨5, 10, 3, []⟩ [10, 20]).reward).length = 2 ∧
    ∀ r ∈ (slimBlock.processPercentiles ⟨5, 10, 3, []⟩ [10, 20]).reward, r = 0 := by
  have h := processPercentiles_zero_txs ⟨5, 10, 3, []⟩ [10, 20] (by decide) rfl
  exact ⟨by decide, rfl, h.1, h.2⟩

/-- C10: for an ascending percentile sequence and a slim block with at least
one transaction whose transactions are sorted ascending by reward (the
invariant `processBlock` establishes), the emitted reward sequence is itself
non-decreasing: the cursor only moves forward, and rewards grow with the
cursor. -/
theorem processPercentiles_monotone_rewards (sb : slimBlock) (ps : List ℚ)
    (hs : List.Pairwise (fun a b => a.reward ≤ b.reward) sb.Txs)
    (hne : sb.Txs ≠ [])
    (_hps : List.Chain' (fun a b => a ≤ b) ps) :
    List.Chain' (fun a b => a ≤ b) ((sb.processPercentiles ps).reward) := by
  rw [processPercentiles_reward_eq_walk sb ps hne]
  exact (rewardsByCursorWalk_chain sb.Txs sb.GasUsed hs hne ps 0 (Nat.zero_le _)).1

theorem processPercentiles_monotone_rewards_witness :
    List.Pairwise (fun a b => a.reward ≤ b.reward)
      (⟨20, 100, 0, [⟨10, 1⟩, ⟨10, 2⟩]⟩ : slimBlock).Txs ∧
    List.Chain' (fun a b => a ≤ b) [(0 : ℚ), 50, 100] ∧
    List.Chain' (fun a b => a ≤ b)
      ((slimBlock.processPercentiles ⟨20, 100, 0, [⟨10, 1⟩, ⟨10, 2⟩]⟩ [0, 50, 100]).reward) :=
  ⟨by decide, by simp [List.chain'_cons]; norm_num,
   processPercentiles_monotone_rewards ⟨20, 100, 0, [⟨10, 1⟩, ⟨10, 2⟩]⟩ [0, 50, 100]
     (by decide) (by decide) (by simp [List.chain'_cons]; norm_num)⟩

/-- C8 counterexample: a sorted slim block with a zero-gas largest-reward
transaction and `GasUsed` equal to the transactions' total gas.  At percentile
100 the threshold `10` is already reached at cursor position 1, so the
calculator emits reward 2, not the largest reward 3. -/
theorem processPercentiles_p100_counterexample :
    List.Pairwise (fun a b => a.reward ≤ b.reward)
      (⟨10, 100, 0, [⟨5, 1⟩, ⟨5, 2⟩, ⟨0, 3⟩]⟩ : slimBlock).Txs ∧
    (slimBlock.processPercentiles ⟨10, 100, 0, [⟨5, 1⟩, ⟨5, 2⟩, ⟨0, 3⟩]⟩ [100]).reward = [2] ∧
    (slimBlock.processPercentiles ⟨10, 100, 0, [⟨5, 1⟩, ⟨5, 2⟩, ⟨0, 3⟩]⟩ [100]).reward
      ≠ [((⟨10, 100, 0, [⟨5, 1⟩, ⟨5, 2⟩, ⟨0, 3⟩]⟩ : slimBlock).Txs.getD
            ((⟨10, 100, 0, [⟨5, 1⟩, ⟨5, 2⟩, ⟨0, 3⟩]⟩ : slimBlock).Txs.length - 1)
            default).reward] := by
  decide

/-- C8 (amended): for a slim block whose transactions are sorted ascending by
reward, all consume positive gas and together account for the block's
`GasUsed`, percentile 0 returns the smallest-reward transaction's reward and
percentile 100 — or any percentile whose threshold reaches the total gas —
returns the largest-reward transaction's reward. -/
theorem processPercentiles_extremes (sb : slimBlock)
    (hs : List.Pairwise (fun a b => a.reward ≤ b.reward) sb.Txs)
    (hne : sb.Txs ≠ [])
    (hpos : ∀ t ∈ sb.Txs, 0 < t.gasUsed)
    (hsum : sb.GasUsed = (sb.Txs.map (fun t => t.gasUsed)).sum) :
    ((sb.processPercentiles [0]).reward = [(sb.Txs.getD 0 default).reward]
      ∧ ∀ t ∈ sb.Txs, (sb.Txs.getD 0 default).reward ≤ t.reward)
    ∧ ((sb.processPercentiles [100]).reward
          = [(sb.Txs.getD (sb.Txs.length - 1) default).reward]
      ∧ ∀ t ∈ sb.Txs, t.reward ≤ (sb.Txs.getD (sb.Txs.length - 1) default).reward)
    ∧ ∀ p : ℚ, (sb.Txs.map (fun t => t.gasUsed)).sum ≤ thresholdGasUsed sb.GasUsed p →
        (sb.processPercentiles [p]).reward
          = [(sb.Txs.getD (sb.Txs.length - 1) default).reward] := by
  have hlen : 0 < sb.Txs.length := List.length_pos.mpr hne
  have hsingle : ∀ p : ℚ, (sb.processPercentiles [p]).reward
      = [(sb.Txs.getD (cursorStop sb.Txs (thresholdGasUsed sb.GasUsed p) 0) default).reward] := by
    intro p
    rw [processPercentiles_reward_eq_walk sb [p] hne]
    simp only [claimPercentileRewardsFixed, rewardsByCursorWalk]
  have hmin : ∀ t ∈ sb.Txs, (sb.Txs.getD 0 default).reward ≤ t.reward := by
    intro t ht
    obtain ⟨⟨j, hj⟩, rfl⟩ := List.mem_iff_get.mp ht
    have h := sorted_getD_mono sb.Txs hs (Nat.zero_le j) hj
    rw [List.getD_eq_getElem sb.Txs default hj] at h
    simpa using h
  have hmax : ∀ t ∈ sb.Txs, t.reward ≤ (sb.Txs.getD (sb.Txs.length - 1) default).reward := by
    intro t ht
    obtain ⟨⟨j, hj⟩, rfl⟩ := List.mem_iff_get.mp ht
    have h := sorted_getD_mono sb.Txs hs (show j ≤ sb.Txs.length - 1 from by omega)
      (show sb.Txs.length - 1 < sb.Txs.length from by omega)
    rw [List.getD_eq_getElem sb.Txs default hj] at h
    simpa using h
  have hlast : ∀ p : ℚ, (sb.Txs.map (fun t => t.gasUsed)).sum ≤ thresholdGasUsed sb.GasUsed p →
      (sb.processPercentiles [p]).reward
        = [(sb.Txs.getD (sb.Txs.length - 1) default).reward] := by
    intro p hp
    rw [hsingle p, cursorStop_total sb.Txs _ hpos hp hne 0]
  refine ⟨⟨?_, hmin⟩, ⟨?_, hmax⟩, hlast⟩
  · rw [hsingle 0, thresholdGasUsed_zero, cursorStop_zero_threshold sb.Txs 0 (by omega)]
  · exact hlast 100 (by rw [thresholdGasUsed_hundred, hsum])

theorem processPercentiles_extremes_witness :
    ((∀ t ∈ (⟨20, 100, 0, [⟨10, 1⟩, ⟨10, 2⟩]⟩ : slimBlock).Txs, 0 < t.gasUsed) ∧
     (⟨20, 100, 0, [⟨10, 1⟩, ⟨10, 2⟩]⟩ : slimBlock).GasUsed
       = ((⟨20, 100, 0, [⟨10, 1⟩, ⟨10, 2⟩]⟩ : slimBlock).Txs.map (fun t => t.gasUsed)).sum) ∧
    (slimBlock.processPercentiles ⟨20, 100, 0, [⟨10, 1⟩, ⟨10, 2⟩]⟩ [0]).reward
      = [((⟨20, 100, 0, [⟨10, 1⟩, ⟨10, 2⟩]⟩ : slimBlock).Txs.getD 0 default).reward] ∧
    (slimBlock.processPercentiles ⟨20, 100, 0, [⟨10, 1⟩, ⟨10, 2⟩]⟩ [100]).reward
      = [((⟨20, 100, 0, [⟨10, 1⟩, ⟨10, 2⟩]⟩ : slimBlock).Txs.getD 1 default).reward] := by
  have h := processPercentiles_extremes ⟨20, 100, 0, [⟨10, 1⟩, ⟨10, 2⟩]⟩
    (by decide) (by decide) (by decide) (by decide)
  exact ⟨⟨by decide, by decide⟩, h.1.1, h.2.1.1⟩

/-! ### Claims about the range resolver -/

theorem clampRange_all (a q l b : ℤ) (hb : 1 ≤ b) (h0 : 0 ≤ l) (hlt : l < 2 ^ 64)
    (hmq : -1 ≤ q) (hsafe : a - q ≤ l ∨ l = a) :
    (clampRange a q l b).2.2 = none ∧
    0 ≤ (clampRange a q l b).2.1 ∧
    ((clampRange a q l b).1 : ℤ) - (clampRange a q l b).2.1 + 1 ≥ 0 := by
  refine ⟨rfl, ?_, ?_⟩ <;>
    (unfold clampRange toUint64; dsimp only; split_ifs <;> omega)

/-- C3 counterexample: `resolveBlockRange` called with `blockCount = -1`
(head 5, window 10) returns `(5, -1)` with no error, so "the returned
blockCount is never negative" fails for an input the claim quantifies over. -/
theorem resolveBlockRange_negative_count_example :
    resolveBlockRange ⟨5, 10, 10⟩ 5 (-1) = (5, -1, none) ∧ (-1 : ℤ) < 0 := by
  decide

/-- C3 (amended): for every input whose `lastBlock` is an absolute number or
one of the pending/latest/accepted selectors (the values an `rpc.BlockNumber`
takes), in the `int64`/`uint64` value ranges of the Go types, and whose
requested `blockCount` is at least 1: if `resolveBlockRange` returns without
error then the returned count is non-negative and
`oldestBlock = lastBlock - blockCount + 1 >= 0`, and every error return
carries the zero range `(0, 0)`. -/
theorem resolveBlockRange_range_sound (oracle : Oracle) (lastB blocks0 : ℤ)
    (hsel : AcceptedBlockNumber ≤ lastB) (hint : lastB < 2 ^ 63)
    (hhead : (oracle.lastAcceptedBlock : ℤ) < 2 ^ 64)
    (hb : 1 ≤ blocks0) :
    ((resolveBlockRange oracle lastB blocks0).2.2 = none →
      0 ≤ (resolveBlockRange oracle lastB blocks0).2.1 ∧
      ((resolveBlockRange oracle lastB blocks0).1 : ℤ)
        - (resolveBlockRange oracle lastB blocks0).2.1 + 1 ≥ 0) ∧
    ((resolveBlockRange oracle lastB blocks0).2.2 ≠ none →
      (resolveBlockRange oracle lastB blocks0).1 = 0 ∧
      (resolveBlockRange oracle lastB blocks0).2.1 = 0) := by
  have hsel' : (-3 : ℤ) ≤ lastB := hsel
  have hA0 : (0 : ℤ) ≤ (oracle.lastAcceptedBlock : ℤ) := Int.natCast_nonneg _
  have hmq : (-1 : ℤ) ≤ (oracle.maxBlockHistory : ℤ) - 1 := by
    have : (0 : ℤ) ≤ (oracle.maxBlockHistory : ℤ) := Int.natCast_nonneg _
    omega
  have haccL : isAccepted LatestBlockNumber :=
    ⟨by norm_num [LatestBlockNumber], by norm_num [LatestBlockNumber, AcceptedBlockNumber]⟩
  have master :
      (∃ e, resolveBlockRange oracle lastB blocks0 = (0, 0, some e)) ∨
      ((resolveBlockRange oracle lastB blocks0).2.2 = none ∧
       0 ≤ (resolveBlockRange oracle lastB blocks0).2.1 ∧
       ((resolveBlockRange oracle lastB blocks0).1 : ℤ)
         - (resolveBlockRange oracle lastB blocks0).2.1 + 1 ≥ 0) := by
    unfold resolveBlockRange
    dsimp only
    split_ifs
    all_goals first
      | exact Or.inl ⟨_, rfl⟩
      | (refine Or.inr ⟨rfl, ?_, ?_⟩ <;> (dsimp only; omega))
      | (refine Or.inr (clampRange_all _ _ _ _ ?_ hA0 hhead hmq (Or.inr rfl))
         omega)
      | (rename_i hacc hhist hbey
         have h0 : 0 ≤ lastB := by
           simp only [isAccepted, AcceptedBlockNumber, not_and, not_lt] at hacc
           omega
         refine Or.inr (clampRange_all _ _ _ _ hb h0 (by omega) hmq ?_)
         rcases not_and_or.mp hhist with h | h
         · exact Or.inl (by omega)
         · exact Or.inl (by omega))
  rcases master with ⟨e, hE⟩ | ⟨hnone, hcnt, hold⟩
  · rw [hE]
    constructor
    · intro h
      exact absurd h (by simp)
    · intro _
      exact ⟨rfl, rfl⟩
  · constructor
    · intro _
      exact ⟨hcnt, hold⟩
    · intro h
      exact absurd hnone h

theorem resolveBlockRange_range_sound_witness :
    (AcceptedBlockNumber ≤ (9 : ℤ) ∧ (9 : ℤ) < 2 ^ 63 ∧
     (((⟨9, 8, 10⟩ : Oracle).lastAcceptedBlock : ℤ) < 2 ^ 64) ∧ (1 : ℤ) ≤ 5) ∧
    (((resolveBlockRange ⟨9, 8, 10⟩ 9 5).2.2 = none →
      0 ≤ (resolveBlockRange ⟨9, 8, 10⟩ 9 5).2.1 ∧
      ((resolveBlockRange ⟨9, 8, 10⟩ 9 5).1 : ℤ)
        - (resolveBlockRange ⟨9, 8, 10⟩ 9 5).2.1 + 1 ≥ 0) ∧
     ((resolveBlockRange ⟨9, 8, 10⟩ 9 5).2.2 ≠ none →
      (resolveBlockRange ⟨9, 8, 10⟩ 9 5).1 = 0 ∧
      (resolveBlockRange ⟨9, 8, 10⟩ 9 5).2.1 = 0)) :=
  ⟨⟨by decide, by decide, by decide, by decide⟩,
   resolveBlockRange_range_sound ⟨9, 8, 10⟩ 9 5 (by decide) (by decide) (by decide) (by decide)⟩

/-- C4 counterexample: with head 100 and window 8, `lastBlock = 0` is far more
than the window behind the head and the head exceeds the window, yet the call
with `blockCount = 0` returns `(0, 0)` with no error instead of failing with
`BeyondHistoricalLimit`, because the zero-count early return fires first. -/
theorem resolveBlockRange_limit_zero_count_example :
    (100 : ℤ) - 0 > 8 ∧ (100 : ℤ) > 8 ∧
    resolveBlockRange ⟨100, 8, 10⟩ 0 0 = (0, 0, none) := by
  decide

/-- C4 (amended): for every request with an absolute `lastBlock` and a nonzero
`blockCount`: if the head exceeds the window and `lastBlock` is more than
`maxBlockHistory` behind the head, `resolveBlockRange` fails with
`BeyondHistoricalLimit`; and if `lastBlock` exceeds the head it fails with
`RequestBeyondHead`.  Both errors name the requested block and the head. -/
theorem resolveBlockRange_limit_errors (oracle : Oracle) (lastB blocks0 : ℤ)
    (h0 : 0 ≤ lastB) (hb : blocks0 ≠ 0) :
    (((oracle.maxBlockHistory : ℤ) < (oracle.lastAcceptedBlock : ℤ)) →
      ((oracle.maxBlockHistory : ℤ) < (oracle.lastAcceptedBlock : ℤ) - lastB) →
      resolveBlockRange oracle lastB blocks0
        = (0, 0, some (FeeHistoryError.beyondHistoricalLimit lastB
            (oracle.lastAcceptedBlock : ℤ)))) ∧
    (((oracle.lastAcceptedBlock : ℤ) < lastB) →
      resolveBlockRange oracle lastB blocks0
        = (0, 0, some (FeeHistoryError.requestBeyondHead lastB
            (oracle.lastAcceptedBlock : ℤ)))) := by
  have hM0 : (0 : ℤ) ≤ (oracle.maxBlockHistory : ℤ) := Int.natCast_nonneg _
  have hnp : ¬ lastB = PendingBlockNumber := by
    simp only [PendingBlockNumber]
    omega
  have hnacc : ¬ isAccepted lastB := by
    simp only [isAccepted, AcceptedBlockNumber, not_and, not_lt]
    intro h
    omega
  constructor
  · intro hgate hhist
    unfold resolveBlockRange
    dsimp only
    rw [if_neg hnp, if_neg hnp, if_neg hb, if_neg hnacc,
      if_pos (⟨by omega, by omega⟩ :
        (oracle.lastAcceptedBlock : ℤ) > (oracle.maxBlockHistory : ℤ) - 1 ∧
        (oracle.lastAcceptedBlock : ℤ) - ((oracle.maxBlockHistory : ℤ) - 1) > lastB)]
  · intro hbeyond
    unfold resolveBlockRange
    dsimp only
    rw [if_neg hnp, if_neg hnp, if_neg hb, if_neg hnacc,
      if_neg (show ¬ ((oracle.lastAcceptedBlock : ℤ) > (oracle.maxBlockHistory : ℤ) - 1 ∧
        (oracle.lastAcceptedBlock : ℤ) - ((oracle.maxBlockHistory : ℤ) - 1) > lastB) from by
          intro h
          omega),
      if_pos (show lastB > (oracle.lastAcceptedBlock : ℤ) from by omega)]

theorem resolveBlockRange_limit_errors_witness :
    ((0 : ℤ) ≤ 5 ∧ (1 : ℤ) ≠ 0 ∧ (8 : ℤ) < 100 ∧ (8 : ℤ) < 100 - 5 ∧
     resolveBlockRange ⟨100, 8, 10⟩ 5 1
       = (0, 0, some (FeeHistoryError.beyondHistoricalLimit 5 100))) ∧
    ((0 : ℤ) ≤ 150 ∧ (100 : ℤ) < 150 ∧
     resolveBlockRange ⟨100, 8, 10⟩ 150 1
       = (0, 0, some (FeeHistoryError.requestBeyondHead 150 100))) :=
  ⟨⟨by decide, by decide, by decide, by decide,
    (resolveBlockRange_limit_errors ⟨100, 8, 10⟩ 5 1 (by decide) (by decide)).1
      (by decide) (by decide)⟩,
   ⟨by decide, by decide,
    (resolveBlockRange_limit_errors ⟨100, 8, 10⟩ 150 1 (by decide) (by decide)).2
      (by decide)⟩⟩

theorem validatePercentilesAux_some_shape :
    ∀ (ps : List ℚ) (prev : Option ℚ) (idx : ℕ) (e : FeeHistoryError),
      validatePercentilesAux prev idx ps = some e → offendingPercentileErr e := by
  intro ps
  induction ps with
  | nil =>
    intro prev idx e h
    simp [validatePercentilesAux] at h
  | cons p ps ih =>
    intro prev idx e h
    simp only [validatePercentilesAux] at h
    by_cases h1 : p < 0 ∨ p > 100
    · rw [if_pos h1] at h
      injection h with h
      subst h
      simpa [offendingPercentileErr] using h1
    · rw [if_neg h1] at h
      cases prev with
      | none => exact ih _ _ _ h
      | some q =>
        dsimp only at h
        by_cases h2 : p < q
        · rw [if_pos h2] at h
          injection h with h
          subst h
          simpa [offendingPercentileErr] using h2
        · rw [if_neg h2] at h
          exact ih _ _ _ h

theorem validatePercentilesAux_none_sound :
    ∀ (ps : List ℚ) (prev : Option ℚ) (idx : ℕ),
      validatePercentilesAux prev idx ps = none →
      (∀ p ∈ ps, 0 ≤ p ∧ p ≤ 100) ∧
      List.Chain' (fun a b => a ≤ b) ps ∧
      (∀ q, prev = some q → ∀ y ∈ ps.head?, q ≤ y) := by
  intro ps
  induction ps with
  | nil =>
    intro prev idx _
    refine ⟨by simp, List.chain'_nil, ?_⟩
    intro q _ y hy
    simp at hy
  | cons p ps ih =>
    intro prev idx h
    simp only [validatePercentilesAux] at h
    by_cases h1 : p < 0 ∨ p > 100
    · rw [if_pos h1] at h
      simp at h
    · rw [if_neg h1] at h
      push_neg at h1
      have hbounds : 0 ≤ p ∧ p ≤ 100 := h1
      have hrec : validatePercentilesAux (some p) (idx + 1) ps = none := by
        cases prev with
        | none => exact h
        | some q =>
          dsimp only at h
          by_cases h2 : p < q
          · rw [if_pos h2] at h
            simp at h
          · rw [if_neg h2] at h
            exact h
      obtain ⟨hall, hchain, hlink⟩ := ih (some p) (idx + 1) hrec
      refine ⟨?_, ?_, ?_⟩
      · intro x hx
        rcases List.mem_cons.mp hx with rfl | hx'
        · exact hbounds
        · exact hall x hx'
      · exact List.chain'_cons'.mpr ⟨fun y hy => hlink p rfl y hy, hchain⟩
      · intro q hq y hy
        simp only [List.head?_cons, Option.mem_def, Option.some.injEq] at hy
        subst hy
        cases prev with
        | none => simp at hq
        | some q' =>
          have hq2 : q' = q := Option.some.inj hq
          subst hq2
          dsimp only at h
          by_cases h2 : p < q'
          · rw [if_pos h2] at h
            simp at h
          · exact le_of_not_lt h2

theorem chain'_getD_le (ps : List ℚ) (hch : List.Chain' (fun a b => a ≤ b) ps)
    (i : ℕ) (h : i + 1 < ps.length) : ps.getD i 0 ≤ ps.getD (i + 1) 0 := by
  rw [List.getD_eq_getElem ps 0 (by omega), List.getD_eq_getElem ps 0 h]
  have := List.chain'_iff_get.mp hch i (by omega)
  simpa using this

/-! ### Claims about `FeeHistory` validation -/

/-- C5 counterexample: a request with `blockCount = 0` and the out-of-range
percentile 200 returns empty success with no error, because the
`blockCount < 1` early return precedes percentile validation. -/
theorem feeHistory_invalid_percentile_zero_count_example :
    ((200 : ℚ) < 0 ∨ (100 : ℚ) < 200) ∧
    (FeeHistory ⟨9, 8, 10⟩ (fun _ => FetchOutcome.notFound) 0 9 [200]).err = none := by
  decide

/-- C5 (amended): for every call with `blockCount >= 1` whose percentile list
contains a value outside `[0, 100]` or a strictly decreasing adjacent pair,
`FeeHistory` fails with an `InvalidPercentile` error naming an offending value
or pair.  The backend is universally quantified and the failing result is
independent of it: the failure happens before any backend call. -/
theorem feeHistory_invalid_percentile (oracle : Oracle) (backend : ℕ → FetchOutcome)
    (blocks0 lastB : ℤ) (ps : List ℚ)
    (hb : 1 ≤ blocks0)
    (hbad : (∃ p ∈ ps, p < 0 ∨ 100 < p) ∨
            ∃ i, i + 1 < ps.length ∧ ps.getD (i + 1) 0 < ps.getD i 0) :
    ∃ e, FeeHistory oracle backend blocks0 lastB ps = ⟨0, none, none, none, some e⟩ ∧
         offendingPercentileErr e := by
  rcases h : validatePercentiles ps with _ | e
  · exfalso
    obtain ⟨hall, hchain, _⟩ := validatePercentilesAux_none_sound ps none 0 h
    rcases hbad with ⟨p, hp, hout⟩ | ⟨i, hi, hdec⟩
    · rcases hout with hlt | hgt
      · exact absurd (hall p hp).1 (not_le.mpr hlt)
      · exact absurd (hall p hp).2 (not_le.mpr hgt)
    · exact absurd (chain'_getD_le ps hchain i hi) (not_le.mpr hdec)
  · refine ⟨e, ?_, validatePercentilesAux_some_shape ps none 0 e h⟩
    unfold FeeHistory
    rw [if_neg (by omega)]
    dsimp only
    rw [show validatePercentiles ps = some e from h]

theorem feeHistory_invalid_percentile_witness :
    ((1 : ℤ) ≤ 1) ∧ (200 : ℚ) ∈ [(200 : ℚ)] ∧ (100 : ℚ) < 200 ∧
    (∃ e, FeeHistory ⟨9, 8, 10⟩ (fun _ => FetchOutcome.notFound) 1 9 [200]
        = ⟨0, none, none, none, some e⟩ ∧ offendingPercentileErr e) :=
  ⟨by decide, by decide, by decide,
   feeHistory_invalid_percentile ⟨9, 8, 10⟩ (fun _ => FetchOutcome.notFound) 1 9 [200]
     (by decide) (Or.inl ⟨200, by decide, Or.inr (by decide)⟩)⟩

/-- C6: a call with `blockCount < 1` returns the empty success (nil arrays,
no error).  The backend is universally quantified and the result is
independent of it: the early return happens before consulting the backend. -/
theorem feeHistory_zero_blocks_empty (oracle : Oracle) (backend : ℕ → FetchOutcome)
    (blocks0 lastB : ℤ) (ps : List ℚ) (hb : blocks0 < 1) :
    FeeHistory oracle backend blocks0 lastB ps = ⟨0, none, none, none, none⟩ := by
  unfold FeeHistory
  rw [if_pos hb]

theorem feeHistory_zero_blocks_empty_witness :
    ((0 : ℤ) < 1) ∧
    FeeHistory ⟨9, 8, 10⟩ (fun _ => FetchOutcome.notFound) 0 9 []
      = ⟨0, none, none, none, none⟩ :=
  ⟨by decide,
   feeHistory_zero_blocks_empty ⟨9, 8, 10⟩ (fun _ => FetchOutcome.notFound) 0 9 [] (by decide)⟩

/-! ### Helper lemmas about the fetch pipeline -/

theorem rangeEntries_length (backend : ℕ → FetchOutcome) (ps : List ℚ) :
    ∀ n oldest, (rangeEntries backend ps oldest n).length = n := by
  intro n
  induction n with
  | zero => intro oldest; rfl
  | succ n ih =>
    intro oldest
    simp only [rangeEntries, List.length_cons, ih]

theorem rangeEntries_mem (backend : ℕ → FetchOutcome) (ps : List ℚ) :
    ∀ n oldest i, i < n →
      blockFeesAt backend ps (oldest + i) ∈ rangeEntries backend ps oldest n := by
  intro n
  induction n with
  | zero => intro oldest i hi; omega
  | succ n ih =>
    intro oldest i hi
    cases i with
    | zero => simp [rangeEntries]
    | succ i =>
      have := ih (oldest + 1) i (by omega)
      rw [show oldest + 1 + i = oldest + (i + 1) from by omega] at this
      exact List.mem_cons_of_mem _ this

theorem fetchRange_ok (backend : ℕ → FetchOutcome) (ps : List ℚ)
    (hnoerr : ∀ n, backend n ≠ FetchOutcome.backendErr) :
    ∀ n oldest, fetchRange backend ps oldest n
      = Except.ok (rangeEntries backend ps oldest n) := by
  intro n
  induction n with
  | zero => intro oldest; rfl
  | succ n ih =>
    intro oldest
    simp only [fetchRange, rangeEntries]
    cases hbk : backend oldest with
    | backendErr => exact absurd hbk (hnoerr oldest)
    | notFound =>
      rw [ih (oldest + 1)]
      simp only [blockFeesAt, hbk]
      rfl
    | found sb =>
      rw [ih (oldest + 1)]
      simp only [blockFeesAt, hbk]
      rfl

/-- The pipeline stage of `FeeHistory`: when validation passes, the range
resolves to a positive count with no error, and no backend error occurs in
the range, the call returns the assembled per-slot entries. -/
theorem feeHistory_reaches_assemble (oracle : Oracle) (backend : ℕ → FetchOutcome)
    (blocks0 lastB : ℤ) (ps : List ℚ) (last : ℕ) (count : ℤ)
    (hb : 1 ≤ blocks0)
    (hval : validatePercentiles ps = none)
    (hres : resolveBlockRange oracle lastB
        (if blocks0 > (oracle.maxCallBlockHistory : ℤ) then (oracle.maxCallBlockHistory : ℤ)
         else blocks0) = (last, count, none))
    (hcount : 0 < count)
    (hnoerr : ∀ n, backend n ≠ FetchOutcome.backendErr) :
    FeeHistory oracle backend blocks0 lastB ps
      = assemble ps (last + 1 - count.toNat)
          (rangeEntries backend ps (last + 1 - count.toNat) count.toNat) := by
  unfold FeeHistory
  rw [if_neg (by omega)]
  dsimp only
  rw [hval, hres]
  dsimp only
  rw [if_neg (by simp; omega)]
  rw [fetchRange_ok backend ps hnoerr]

/-- C7: with a backend holding blocks 0 through 9, head 9, window
`maxBlockHistory = 8` and cap `maxCallBlockHistory = 10`, the call
`FeeHistory(blockCount=5, lastBlock=9, percentiles=[0,50,100])` returns
`oldestBlock = 5`, five entries in each of the base-fee and gas-used-ratio
arrays, and a 5-by-3 reward matrix, with no error. -/
theorem feeHistory_concrete_scenario :
    (FeeHistory ⟨9, 8, 10⟩
        (fun n => if n ≤ 9 then FetchOutcome.found ⟨0, 1, 7, []⟩ else FetchOutcome.notFound)
        5 9 [0, 50, 100]).oldestBlock = 5 ∧
    (FeeHistory ⟨9, 8, 10⟩
        (fun n => if n ≤ 9 then FetchOutcome.found ⟨0, 1, 7, []⟩ else FetchOutcome.notFound)
        5 9 [0, 50, 100]).err = none ∧
    ((FeeHistory ⟨9, 8, 10⟩
        (fun n => if n ≤ 9 then FetchOutcome.found ⟨0, 1, 7, []⟩ else FetchOutcome.notFound)
        5 9 [0, 50, 100]).baseFee.getD []).length = 5 ∧
    ((FeeHistory ⟨9, 8, 10⟩
        (fun n => if n ≤ 9 then FetchOutcome.found ⟨0, 1, 7, []⟩ else FetchOutcome.notFound)
        5 9 [0, 50, 100]).gasUsedRatio.getD []).length = 5 ∧
    ((FeeHistory ⟨9, 8, 10⟩
        (fun n => if n ≤ 9 then FetchOutcome.found ⟨0, 1, 7, []⟩ else FetchOutcome.notFound)
        5 9 [0, 50, 100]).reward.getD []).length = 5 ∧
    ∀ row ∈ (FeeHistory ⟨9, 8, 10⟩
        (fun n => if n ≤ 9 then FetchOutcome.found ⟨0, 1, 7, []⟩ else FetchOutcome.notFound)
        5 9 [0, 50, 100]).reward.getD [], row.length = 3 := by
  decide

/-- C2: for every `FeeHistory` call that passes validation, resolves to a
positive block count with no error, and meets no backend error — but finds
some block in the resolved range missing ("no block, no error") — the call
succeeds with no error, the first missing slot index `fm` is strictly inside
the range, the response arrays are all truncated to the prefix
`[0, fm)` of the per-slot entries (the reward matrix being omitted entirely
when no percentiles were requested), and if `fm = 0` the overall result is
empty with no error. -/
theorem feeHistory_missing_blocks_truncate (oracle : Oracle)
    (backend : ℕ → FetchOutcome) (blocks0 lastB : ℤ) (ps : List ℚ)
    (last : ℕ) (count : ℤ) (es : List (Option processedFees)) (fm : ℕ)
    (hb : 1 ≤ blocks0)
    (hval : validatePercentiles ps = none)
    (hres : resolveBlockRange oracle lastB
        (if blocks0 > (oracle.maxCallBlockHistory : ℤ) then (oracle.maxCallBlockHistory : ℤ)
         else blocks0) = (last, count, none))
    (hcount : 0 < count)
    (hnoerr : ∀ n, backend n ≠ FetchOutcome.backendErr)
    (hes : es = rangeEntries backend ps (last + 1 - count.toNat) count.toNat)
    (hfm : fm = firstMissingIdx es)
    (hmiss : ∃ i, i < count.toNat ∧
        (blockFeesAt backend ps (last + 1 - count.toNat + i)).isNone = true) :
    (FeeHistory oracle backend blocks0 lastB ps).err = none ∧
    fm < count.toNat ∧
    (fm = 0 →
      FeeHistory oracle backend blocks0 lastB ps = ⟨0, none, none, none, none⟩) ∧
    (0 < fm →
      FeeHistory oracle backend blocks0 lastB ps
        = ⟨((last + 1 - count.toNat : ℕ) : ℤ),
           if ps.length ≠ 0 then
             some (((es.take fm).map (fun o => o.getD default)).map (fun f => f.reward))
           else none,
           some (((es.take fm).map (fun o => o.getD default)).map (fun f => f.baseFee)),
           some (((es.take fm).map (fun o => o.getD default)).map (fun f => f.gasUsedRatio)),
           none⟩) := by
  have hfh := feeHistory_reaches_assemble oracle backend blocks0 lastB ps last count
    hb hval hres hcount hnoerr
  rw [← hes] at hfh
  obtain ⟨i, hi, hnone⟩ := hmiss
  have hmem : blockFeesAt backend ps (last + 1 - count.toNat + i) ∈ es := by
    rw [hes]
    exact rangeEntries_mem backend ps count.toNat _ i hi
  have hlen : es.length = count.toNat := by
    rw [hes]
    exact rangeEntries_length backend ps _ _
  have hfmlt : fm < count.toNat := by
    rw [hfm, ← hlen]
    exact List.findIdx_lt_length_of_exists ⟨_, hmem, hnone⟩
  refine ⟨?_, hfmlt, ?_, ?_⟩
  · rw [hfh]
    unfold assemble
    dsimp only
    rw [← hfm]
    rcases Nat.eq_zero_or_pos fm with h0 | h0
    · rw [if_pos h0]
    · rw [if_neg (by omega)]
  · intro h0
    rw [hfh]
    unfold assemble
    dsimp only
    rw [← hfm, if_pos h0]
  · intro h0
    rw [hfh]
    unfold assemble
    dsimp only
    rw [← hfm, if_neg (by omega)]

theorem feeHistory_missing_blocks_truncate_witness :
    (∀ n, (if 5 ≤ n ∧ n ≤ 8 then FetchOutcome.found ⟨0, 1, 7, []⟩ else FetchOutcome.notFound)
        ≠ FetchOutcome.backendErr) ∧
    (blockFeesAt
        (fun n => if 5 ≤ n ∧ n ≤ 8 then FetchOutcome.found ⟨0, 1, 7, []⟩
                  else FetchOutcome.notFound) [] 9).isNone = true ∧
    (FeeHistory ⟨9, 20, 10⟩
        (fun n => if 5 ≤ n ∧ n ≤ 8 then FetchOutcome.found ⟨0, 1, 7, []⟩
                  else FetchOutcome.notFound) 5 9 []).err = none ∧
    firstMissingIdx (rangeEntries
        (fun n => if 5 ≤ n ∧ n ≤ 8 then FetchOutcome.found ⟨0, 1, 7, []⟩
                  else FetchOutcome.notFound) [] 5 5) < 5 := by
  have hnoerr : ∀ n,
      (fun n => if 5 ≤ n ∧ n ≤ 8 then FetchOutcome.found (⟨0, 1, 7, []⟩ : slimBlock)
                else FetchOutcome.notFound) n ≠ FetchOutcome.backendErr := by
    intro n
    dsimp only
    split <;> simp
  have h := feeHistory_missing_blocks_truncate ⟨9, 20, 10⟩
    (fun n => if 5 ≤ n ∧ n ≤ 8 then FetchOutcome.found (⟨0, 1, 7, []⟩ : slimBlock)
              else FetchOutcome.notFound)
    5 9 [] 9 5 _ _
    (by norm_num) rfl (by decide) (by norm_num) hnoerr rfl rfl
    ⟨4, by norm_num, by decide⟩
  exact ⟨fun n => hnoerr n, by decide, h.1, h.2.1⟩
